import Mathlib

/-!
Verification of the SmartStudy scoring & activity-analytics engine.

The repository is a full-stack study-task manager: a React frontend (under
`frontend/src`) and a FastAPI backend whose `app/priority.py` and stats
routes implement the scoring and analytics core.  The frontend sources are
embedded below directly; the backend computation files are not part of the
provided sources, so those components (PriorityScorer, StreakTracker,
ActivityAggregator, ConsistencyCalculator) are modelled from the
specification, as marked on each definition.

Real numbers of the JavaScript/Python code are modelled as rationals `ℚ`;
instants and local calendar days as integers (days for the scorer,
epoch milliseconds for task due dates, day numbers for streaks).
-/

/-! ## Definitions -/

/-- Clamp a rational to the interval `[lo, hi]`. -/
def clamp (x lo hi : ℚ) : ℚ := max lo (min x hi)

namespace PriorityScorer

/-- Modelled from the spec: the backend `app/priority.py` (Priority
Calculation Engine) is not among the provided sources.  Contract from the
spec, section 4.1: `score(dueInstant, effortHours, complexityLevel,
nowInstant)`.  Instants are measured in days, so `dueInstant - nowInstant`
is the (possibly negative or fractional) number of days to the deadline.
Only the final weighted sum is clamped to `[0, 1]`. -/
def score (dueInstant effortHours : ℚ) (complexityLevel : ℤ) (nowInstant : ℚ) : ℚ :=
  let daysToDeadline := dueInstant - nowInstant
  let urgency := (30 - daysToDeadline) / 30
  let effortScore := effortHours / 20
  let complexityScore := (complexityLevel : ℚ) / 5
  clamp (0.5 * urgency + 0.3 * effortScore + 0.2 * complexityScore) 0 1

end PriorityScorer

namespace StreakTracker

/-- Modelled from the spec: the backend streak computation is not among the
provided sources.  Fueled backward walk counting consecutive present days:
`backRunAux days d fuel` counts how many of `d, d - 1, d - 2, …` are in
`days`, stopping at the first absent day or when the fuel runs out. -/
def backRunAux (days : Finset ℤ) : ℤ → ℕ → ℕ
  | _, 0 => 0
  | d, fuel + 1 => if d ∈ days then backRunAux days (d - 1) fuel + 1 else 0

/-- Modelled from the spec: length of the unbroken run of completion days
ending at `d` (walking backward from `d`).  `days.card` fuel always
suffices because a run consists of distinct elements of `days`. -/
def backRun (days : Finset ℤ) (d : ℤ) : ℕ := backRunAux days d days.card

/-- Modelled from the spec, section 4.3 (current streak): walk backward
from `today` if present; if `today` is absent but `today - 1` is present,
report the run ending at `today - 1` (grace period); otherwise 0. -/
def currentStreak (days : Finset ℤ) (today : ℤ) : ℕ :=
  if today ∈ days then backRun days today
  else if today - 1 ∈ days then backRun days (today - 1)
  else 0

/-- Modelled from the spec, section 4.3 (best streak): the single scan over
the ascending day list, extending the current run on a consecutive day and
resetting it to 1 on a gap, tracking the best run seen. -/
def scanAux : ℤ → ℕ → ℕ → List ℤ → ℕ
  | _, run, best, [] => max best run
  | prev, run, best, d :: rest =>
    if d = prev + 1 then scanAux d (run + 1) best rest
    else scanAux d 1 (max best run) rest

/-- Modelled from the spec: best streak of a sorted day list; 0 for the
empty list, otherwise the scan starting with a run of length 1 at the
head. -/
def bestOfSorted : List ℤ → ℕ
  | [] => 0
  | d :: rest => scanAux d 1 0 rest

/-- Modelled from the spec, section 4.3: sort the distinct completion days
ascending and scan once for the best run. -/
def bestStreak (days : Finset ℤ) : ℕ := bestOfSorted (days.sort (· ≤ ·))

/-- Length of the initial segment of `l` that continues the consecutive
run after `prev` (proof-side closed form of the scan). -/
def contLen : ℤ → List ℤ → ℕ
  | _, [] => 0
  | prev, d :: rest => if d = prev + 1 then contLen d rest + 1 else 0

/-- Best length over runs that start strictly inside `l` (i.e. at a gap),
given that the previous element was `prev` (proof-side closed form). -/
def maxRunT : ℤ → List ℤ → ℕ
  | _, [] => 0
  | prev, d :: rest =>
    if d = prev + 1 then maxRunT d rest
    else max (contLen d rest + 1) (maxRunT d rest)

/-- Accumulator-free form of the scan: the best over the run in progress
(of current length `run` ending at `prev`) extended through `l`, and all
later runs. -/
def maxRunCont : ℤ → ℕ → List ℤ → ℕ
  | _, run, [] => run
  | prev, run, d :: rest =>
    if d = prev + 1 then maxRunCont d (run + 1) rest
    else max run (maxRunCont d 1 rest)

/-- Concrete day set for the grace-period scenario: a run of four days
`0,1,2,3` ending the day before `today = 4`. -/
def graceDays : Finset ℤ := {0, 1, 2, 3}

/-- Concrete day set `{d, d+1, d+2, d+4, d+5}` at `d = 0` for the
gap scenario. -/
def gapDays : Finset ℤ := {0, 1, 2, 4, 5}

end StreakTracker

namespace ActivityAggregator

/-- One entry of the weekly series: a local calendar day and the number of
completion events on that day. -/
structure DayCount where
  date : ℤ
  count : ℕ
deriving DecidableEq, Repr

/-- Modelled from the spec, section 4.4 (weekly series): the backend
aggregation is not among the provided sources.  `completionDays` is the
list of completion events already converted to the owner's local day by
the DayBucketer; the window is the 7 owner-local days ending at `today`,
oldest first, each paired with the number of events on that day. -/
def getWeekly (completionDays : List ℤ) (today : ℤ) : List DayCount :=
  (List.range 7).map fun (i : ℕ) =>
    let d := today - 6 + (i : ℤ)
    ⟨d, (completionDays.filter fun e => e = d).length⟩

/-- Modelled from the spec, section 4.4 (heatmap thresholds): the backend
quantization is not among the provided sources.  Fixed thresholds on a
day's completion count: 0 → 0, 1 → 1, 2–3 → 2, 4–5 → 3, ≥6 → 4. -/
def heatLevel (count : ℕ) : ℕ :=
  if count = 0 then 0
  else if count = 1 then 1
  else if count ≤ 3 then 2
  else if count ≤ 5 then 3
  else 4

/-- One cell of the heatmap grid: local day, completion count, and the
quantized level. -/
structure HeatDay where
  date : ℤ
  count : ℕ
  level : ℕ
deriving DecidableEq, Repr

/-- Modelled from the spec, section 4.4 (heatmap): the 365 owner-local days
ending at `today`, each with its completion count and quantized level. -/
def getHeatmapDays (completionDays : List ℤ) (today : ℤ) : List HeatDay :=
  (List.range 365).map fun (i : ℕ) =>
    let d := today - 364 + (i : ℤ)
    let c := (completionDays.filter fun e => e = d).length
    ⟨d, c, heatLevel c⟩

/-- From `frontend/src/components/ActivityHeatmap.jsx`: the five CSS
classes indexed by a day's level. -/
def LEVEL_COLORS : List String :=
  ["bg-white/5", "bg-emerald-900/60", "bg-emerald-700/70",
   "bg-emerald-500/80", "bg-emerald-400"]

end ActivityAggregator

/-- Task status, from the spec data model (section 3): `active` or
`completed`. -/
inductive TaskStatus
  | active
  | completed
deriving DecidableEq, Repr

/-- The task fields the verified claims depend on, from the spec data
model (section 3) and the frontend task objects. -/
structure StudyTask where
  id : ℕ
  status : TaskStatus
  priority_score : ℚ
  due_date : ℤ
  requires_proof : Bool
deriving DecidableEq, Repr

namespace ConsistencyCalculator

/-- Modelled from the spec, section 4.5: the backend summary computation is
not among the provided sources.  `completion_rate` is completed count over
total count, defined as 0 when the owner has no tasks. -/
def completion_rate (tasks : List StudyTask) : ℚ :=
  if tasks.length = 0 then 0
  else ((tasks.filter fun t => t.status = TaskStatus.completed).length : ℚ)
        / (tasks.length : ℚ)

/-- Modelled from the spec, section 4.5: `avg_priority` is the mean
priority score over active tasks, defined as 0 when there are none. -/
def avg_priority (tasks : List StudyTask) : ℚ :=
  let act := tasks.filter fun t => t.status = TaskStatus.active
  if act.length = 0 then 0
  else (act.map fun t => t.priority_score).sum / (act.length : ℚ)

end ConsistencyCalculator

namespace ProofUploadModal

/-- The two task-API operations the completion modal can issue, from
`frontend/src/services/api.js`. -/
inductive ApiCall
  | uploadProof (taskId : ℕ)
  | complete (taskId : ℕ)
deriving DecidableEq, Repr

/-- From `ProofUploadModal.jsx`: `const isMandatory = task?.requires_proof`. -/
def isMandatory (t : StudyTask) : Bool := t.requires_proof

/-- From `ProofUploadModal.jsx`, `handleUploadAndComplete`: with no file
selected it only sets an error message; otherwise it uploads the proof and
then marks the task complete, in that order. -/
def handleUploadAndComplete (t : StudyTask) (file : Option Unit) : List ApiCall :=
  match file with
  | none => []
  | some _ => [ApiCall.uploadProof t.id, ApiCall.complete t.id]

/-- From `ProofUploadModal.jsx`, `handleSkipAndComplete`: returns
immediately when the proof is mandatory, otherwise marks the task
complete. -/
def handleSkipAndComplete (t : StudyTask) : List ApiCall :=
  if isMandatory t then [] else [ApiCall.complete t.id]

/-- From `ProofUploadModal.jsx`: the Skip & Complete button is rendered
only under the `!isMandatory &&` guard. -/
def skipButtonRendered (t : StudyTask) : Bool := !isMandatory t

end ProofUploadModal

namespace TaskForm

/-- Task types of the form, from `TaskForm.jsx` (V2). -/
inductive TaskType
  | daily
  | weekly
  | specific_date
deriving DecidableEq, Repr

/-- The effort-hours text field: empty, a numeric string with its parsed
rational value, or a non-empty string `parseFloat` cannot parse. -/
inductive EffortField
  | empty
  | numeric (q : ℚ)
  | nonNumeric
deriving DecidableEq, Repr

/-- The form state of `TaskForm.jsx` (V2), restricted to the fields the
submit handler examines. -/
structure FormData where
  title : String
  task_type : TaskType
  due_date : String
  effort_hours : EffortField
  complexity_level : ℤ
deriving DecidableEq, Repr

/-- JavaScript `parseFloat` on the effort field; `none` models `NaN`. -/
def parseFloat : EffortField → Option ℚ
  | .empty => none
  | .numeric q => some q
  | .nonNumeric => none

/-- JavaScript falsiness of the effort field string: only the empty string
is falsy (`"0"` is a non-empty string and hence truthy). -/
def isFalsy : EffortField → Bool
  | .empty => true
  | _ => false

/-- JavaScript `x <= c` where `x` may be `NaN`: every comparison with
`NaN` is false. -/
def jsLe (x : Option ℚ) (c : ℚ) : Bool :=
  match x with
  | none => false
  | some q => decide (q ≤ c)

/-- Outcome of the submit handler: either an error message is set and
`onSubmit` is not called, or `onSubmit` is called with the assembled
payload (recorded here as the final due-date string and parsed effort). -/
inductive SubmitResult
  | error (msg : String)
  | submitted (finalDueDate : String) (effort : Option ℚ)
deriving DecidableEq, Repr

/-- From `TaskForm.jsx` (V2), `handleSubmit` lines 56–86: validation runs
in source order — blank trimmed title, then the due date (auto-set to end
of day/week for daily/weekly tasks, required only for a specific-date
task), then the effort hours (`!formData.effort_hours ||
parseFloat(formData.effort_hours) <= 0`).  `endOfTodayISO` and
`endOfWeekISO` stand for the computed `toISOString()` strings. -/
def handleSubmit (fd : FormData) (endOfTodayISO endOfWeekISO : String) :
    SubmitResult :=
  if fd.title.trim = "" then .error "Title is required"
  else
    let finalDueDate :=
      match fd.task_type with
      | .daily => endOfTodayISO
      | .weekly => endOfWeekISO
      | .specific_date => fd.due_date
    if finalDueDate = "" ∧ fd.task_type = TaskType.specific_date then
      .error "Due date is required for a specific date task"
    else if isFalsy fd.effort_hours = true ∨
        jsLe (parseFloat fd.effort_hours) 0 = true then
      .error "Effort hours must be greater than 0"
    else
      .submitted finalDueDate (parseFloat fd.effort_hours)

end TaskForm

namespace Home

/-- From `frontend/src/pages/Home.jsx`, the sort comparator in
`loadTasks`: tasks with distinct priority scores are ordered by descending
score (`b.priority_score - a.priority_score`); ties are ordered by
ascending due date.  `taskLE a b` holds when the comparator allows `a` to
precede `b`. -/
def taskLE (a b : StudyTask) : Bool :=
  if b.priority_score ≠ a.priority_score then
    decide (b.priority_score < a.priority_score)
  else decide (a.due_date ≤ b.due_date)

/-- From `frontend/src/pages/Home.jsx`, `loadTasks`: keep only tasks with
status `active`, then sort by the comparator above. -/
def loadTasks (fetched : List StudyTask) : List StudyTask :=
  List.mergeSort (fetched.filter fun t => t.status = TaskStatus.active) taskLE

end Home

/-! ## Theorems -/

/-- C1: for every due instant, effort hours in `(0, 100]`, complexity level
in `[1, 5]` and now instant, the priority score equals the clamped weighted
sum `clamp (0.5*((30 - daysToDeadline)/30) + 0.3*(effortHours/20) +
0.2*(complexityLevel/5)) 0 1` — the individual factors are not clamped,
only the final sum — and the result therefore lies in `[0, 1]`. -/
theorem priorityScorer_range_invariant
    (due now effort : ℚ) (c : ℤ)
    (he0 : 0 < effort) (he1 : effort ≤ 100) (hc1 : 1 ≤ c) (hc5 : c ≤ 5) :
    PriorityScorer.score due effort c now =
      clamp (0.5 * ((30 - (due - now)) / 30) + 0.3 * (effort / 20)
              + 0.2 * ((c : ℚ) / 5)) 0 1
    ∧ 0 ≤ PriorityScorer.score due effort c now
    ∧ PriorityScorer.score due effort c now ≤ 1 := by
  refine ⟨rfl, ?_, ?_⟩
  · exact le_max_left 0 _
  · exact max_le (by norm_num) (min_le_right _ 1)

/-- Witness for C1 at a concrete input: due in 10 days, 10 effort hours,
complexity 3. -/
theorem priorityScorer_range_invariant_witness :
    0 ≤ PriorityScorer.score 10 10 3 0 ∧ PriorityScorer.score 10 10 3 0 ≤ 1 :=
  (priorityScorer_range_invariant 10 0 10 3 (by norm_num) (by norm_num)
    (by norm_num) (by norm_num)).2

/-- C7: the spec's two worked examples.  Due instant equal to now, effort
10 hours, complexity 3 gives exactly `0.77`; a task overdue by 40 days with
effort 25 hours and complexity 5 has a raw weighted sum above 1 and is
clamped to exactly `1`. -/
theorem priorityScorer_worked_examples :
    PriorityScorer.score 0 10 3 0 = 0.77
    ∧ PriorityScorer.score (-40) 25 5 0 = 1
    ∧ 1 < 0.5 * ((30 - ((-40 : ℚ) - 0)) / 30) + 0.3 * ((25 : ℚ) / 20)
          + 0.2 * ((5 : ℚ) / 5) := by
  refine ⟨?_, ?_, by norm_num⟩
  · simp only [PriorityScorer.score, clamp]
    norm_num
  · simp only [PriorityScorer.score, clamp]
    norm_num

namespace StreakTracker

theorem backRunAux_le (days : Finset ℤ) (fuel : ℕ) :
    ∀ d : ℤ, backRunAux days d fuel ≤ fuel := by
  induction fuel with
  | zero => intro d; simp [backRunAux]
  | succ n ih =>
    intro d
    simp only [backRunAux]
    split
    · exact Nat.succ_le_succ (ih (d - 1))
    · exact Nat.zero_le _

theorem backRunAux_mem (days : Finset ℤ) (fuel : ℕ) :
    ∀ (d : ℤ) (i : ℕ), i < backRunAux days d fuel → d - (i : ℤ) ∈ days := by
  induction fuel with
  | zero => intro d i h; simp [backRunAux] at h
  | succ n ih =>
    intro d i h
    simp only [backRunAux] at h
    by_cases hd : d ∈ days
    · rw [if_pos hd] at h
      cases i with
      | zero => simpa using hd
      | succ j =>
        have hj : j < backRunAux days (d - 1) n := by omega
        have hmem := ih (d - 1) j hj
        have heq : d - ((j + 1 : ℕ) : ℤ) = d - 1 - (j : ℤ) := by push_cast; ring
        rw [heq]
        exact hmem
    · rw [if_neg hd] at h
      omega

theorem backRunAux_stop (days : Finset ℤ) (fuel : ℕ) :
    ∀ d : ℤ, backRunAux days d fuel < fuel →
      d - (backRunAux days d fuel : ℤ) ∉ days := by
  induction fuel with
  | zero => intro d h; omega
  | succ n ih =>
    intro d h
    by_cases hd : d ∈ days
    · have hrw : backRunAux days d (n + 1) = backRunAux days (d - 1) n + 1 := by
        simp [backRunAux, hd]
      rw [hrw] at h ⊢
      have h2 : backRunAux days (d - 1) n < n := by omega
      have hstop := ih (d - 1) h2
      intro hmem
      apply hstop
      have heq : d - ((backRunAux days (d - 1) n + 1 : ℕ) : ℤ)
          = d - 1 - (backRunAux days (d - 1) n : ℤ) := by push_cast; ring
      rwa [heq] at hmem
    · have hrw : backRunAux days d (n + 1) = 0 := by simp [backRunAux, hd]
      rw [hrw]
      simpa using hd

theorem run_le_card (days : Finset ℤ) (d : ℤ) (n : ℕ)
    (h : ∀ i : ℕ, i < n → d - (i : ℤ) ∈ days) : n ≤ days.card := by
  classical
  have hcard := Finset.card_le_card_of_injOn (fun i : ℕ => d - (i : ℤ))
    (fun i hi => h i (Finset.mem_range.mp hi)) ?_
  · simpa using hcard
  · intro a ha b hb hab
    simp only at hab
    omega

theorem backRun_mem (days : Finset ℤ) (d : ℤ) (i : ℕ)
    (h : i < backRun days d) : d - (i : ℤ) ∈ days :=
  backRunAux_mem days days.card d i h

theorem backRun_stop (days : Finset ℤ) (d : ℤ) :
    d - (backRun days d : ℤ) ∉ days := by
  by_cases hlt : backRun days d < days.card
  · exact backRunAux_stop days days.card d hlt
  · have heq : backRun days d = days.card :=
      le_antisymm (backRunAux_le days days.card d) (not_lt.mp hlt)
    intro hmem
    have hall : ∀ i : ℕ, i < days.card + 1 → d - (i : ℤ) ∈ days := by
      intro i hi
      rcases Nat.lt_or_ge i days.card with hlt2 | hge
      · exact backRun_mem days d i (by omega)
      · have hieq : i = days.card := by omega
        subst hieq
        rwa [heq] at hmem
    have := run_le_card days d (days.card + 1) hall
    omega

theorem backRun_pos (days : Finset ℤ) (d : ℤ) (hd : d ∈ days) :
    0 < backRun days d := by
  have hcard : 0 < days.card := Finset.card_pos.mpr ⟨d, hd⟩
  obtain ⟨m, hm⟩ : ∃ m, days.card = m + 1 := ⟨days.card - 1, by omega⟩
  unfold backRun
  rw [hm]
  simp [backRunAux, hd]

end StreakTracker

/-- C2: the current-streak policy.  If `today` is in the completion-day
set, the current streak is the count of consecutive present days walking
backward from `today` until the first absent day; if `today` is absent but
`today - 1` is present, the reported value is the length of the unbroken
run ending at `today - 1` (and in particular positive, not 0); if neither
is present, the current streak is 0. -/
theorem streakTracker_current_streak_policy (days : Finset ℤ) (today : ℤ) :
    (today ∈ days →
      (∀ i : ℕ, i < StreakTracker.currentStreak days today →
        today - (i : ℤ) ∈ days)
      ∧ today - (StreakTracker.currentStreak days today : ℤ) ∉ days)
    ∧ (today ∉ days → today - 1 ∈ days →
      (∀ i : ℕ, i < StreakTracker.currentStreak days today →
        today - 1 - (i : ℤ) ∈ days)
      ∧ today - 1 - (StreakTracker.currentStreak days today : ℤ) ∉ days
      ∧ 0 < StreakTracker.currentStreak days today)
    ∧ (today ∉ days → today - 1 ∉ days →
      StreakTracker.currentStreak days today = 0) := by
  refine ⟨?_, ?_, ?_⟩
  · intro h
    rw [StreakTracker.currentStreak, if_pos h]
    exact ⟨fun i hi => StreakTracker.backRun_mem days today i hi,
      StreakTracker.backRun_stop days today⟩
  · intro h h1
    rw [StreakTracker.currentStreak, if_neg h, if_pos h1]
    exact ⟨fun i hi => StreakTracker.backRun_mem days (today - 1) i hi,
      StreakTracker.backRun_stop days (today - 1),
      StreakTracker.backRun_pos days (today - 1) h1⟩
  · intro h h1
    rw [StreakTracker.currentStreak, if_neg h, if_neg h1]

/-- Witness for C2: with completion days `{0,1,2,3}` (a run of 4 ending
yesterday) and `today = 4`, the grace branch applies and the current
streak is 4, not 0. -/
theorem streakTracker_current_streak_policy_witness :
    StreakTracker.currentStreak StreakTracker.graceDays 4 = 4
    ∧ ((∀ i : ℕ, i < StreakTracker.currentStreak StreakTracker.graceDays 4 →
          (4 : ℤ) - 1 - (i : ℤ) ∈ StreakTracker.graceDays)
      ∧ (4 : ℤ) - 1
          - (StreakTracker.currentStreak StreakTracker.graceDays 4 : ℤ)
          ∉ StreakTracker.graceDays
      ∧ 0 < StreakTracker.currentStreak StreakTracker.graceDays 4) :=
  ⟨by decide,
    (streakTracker_current_streak_policy StreakTracker.graceDays 4).2.1
      (by decide) (by decide)⟩

namespace StreakTracker

theorem scanAux_eq (rest : List ℤ) :
    ∀ (prev : ℤ) (run best : ℕ),
      scanAux prev run best rest = max best (maxRunCont prev run rest) := by
  induction rest with
  | nil => intro prev run best; simp [scanAux, maxRunCont]
  | cons d rest ih =>
    intro prev run best
    simp only [scanAux, maxRunCont]
    by_cases hd : d = prev + 1
    · rw [if_pos hd, if_pos hd, ih]
    · rw [if_neg hd, if_neg hd, ih, Nat.max_assoc]

theorem maxRunCont_eq (rest : List ℤ) :
    ∀ (prev : ℤ) (run : ℕ),
      maxRunCont prev run rest = max (run + contLen prev rest) (maxRunT prev rest) := by
  induction rest with
  | nil => intro prev run; simp [maxRunCont, contLen, maxRunT]
  | cons d rest ih =>
    intro prev run
    simp only [maxRunCont, contLen, maxRunT]
    by_cases hd : d = prev + 1
    · rw [if_pos hd, if_pos hd, if_pos hd, ih]
      omega
    · rw [if_neg hd, if_neg hd, if_neg hd, ih]
      omega

theorem bestOfSorted_cons (d : ℤ) (rest : List ℤ) :
    bestOfSorted (d :: rest) = max (contLen d rest + 1) (maxRunT d rest) := by
  simp only [bestOfSorted]
  rw [scanAux_eq, maxRunCont_eq]
  omega

theorem contLen_mem (rest : List ℤ) :
    ∀ (d : ℤ) (i : ℕ), i < contLen d rest + 1 → d + (i : ℤ) ∈ d :: rest := by
  induction rest with
  | nil =>
    intro d i h
    simp only [contLen] at h
    have hi : i = 0 := by omega
    subst hi
    simp
  | cons e rest ih =>
    intro d i h
    simp only [contLen] at h
    by_cases hd : e = d + 1
    · rw [if_pos hd] at h
      cases i with
      | zero => simp
      | succ j =>
        have hj : j < contLen e rest + 1 := by omega
        have hmem := ih e j hj
        have heq : d + ((j + 1 : ℕ) : ℤ) = e + (j : ℤ) := by
          rw [hd]; push_cast; ring
        rw [heq]
        exact List.mem_cons_of_mem d hmem
    · rw [if_neg hd] at h
      have hi : i = 0 := by omega
      subst hi
      simp

theorem maxRunT_mem (rest : List ℤ) :
    ∀ prev : ℤ, ∃ a : ℤ, ∀ i : ℕ, i < maxRunT prev rest → a + (i : ℤ) ∈ rest := by
  induction rest with
  | nil => intro prev; exact ⟨0, by simp [maxRunT]⟩
  | cons e rest ih =>
    intro prev
    simp only [maxRunT]
    by_cases hd : e = prev + 1
    · rw [if_pos hd]
      obtain ⟨a, ha⟩ := ih e
      exact ⟨a, fun i hi => List.mem_cons_of_mem e (ha i hi)⟩
    · rw [if_neg hd]
      rcases le_total (maxRunT e rest) (contLen e rest + 1) with hle | hle
      · rw [max_eq_left hle]
        exact ⟨e, fun i hi => contLen_mem rest e i hi⟩
      · rw [max_eq_right hle]
        obtain ⟨a, ha⟩ := ih e
        exact ⟨a, fun i hi => List.mem_cons_of_mem e (ha i hi)⟩

theorem bestOfSorted_exists (l : List ℤ) :
    ∃ a : ℤ, ∀ i : ℕ, i < bestOfSorted l → a + (i : ℤ) ∈ l := by
  cases l with
  | nil => exact ⟨0, by simp [bestOfSorted]⟩
  | cons d rest =>
    rw [bestOfSorted_cons]
    rcases le_total (maxRunT d rest) (contLen d rest + 1) with hle | hle
    · rw [max_eq_left hle]
      exact ⟨d, fun i hi => contLen_mem rest d i hi⟩
    · rw [max_eq_right hle]
      obtain ⟨a, ha⟩ := maxRunT_mem rest d
      exact ⟨a, fun i hi => List.mem_cons_of_mem d (ha i hi)⟩

theorem contLen_ge (rest : List ℤ) :
    ∀ (d : ℤ) (n : ℕ), List.Sorted (· < ·) (d :: rest) →
      (∀ i : ℕ, i < n → d + (i : ℤ) ∈ d :: rest) → n ≤ contLen d rest + 1 := by
  induction rest with
  | nil =>
    intro d n _ h
    by_contra hn
    push_neg at hn
    simp only [contLen] at hn
    have h1 : d + ((1 : ℕ) : ℤ) ∈ [d] := h 1 (by omega)
    simp at h1
  | cons e rest ih =>
    intro d n hsort h
    rcases le_or_lt n 1 with hle | hlt
    · omega
    · have hd1 : d + ((1 : ℕ) : ℤ) ∈ d :: e :: rest := h 1 (by omega)
      have hde : d < e := (List.sorted_cons.mp hsort).1 e (by simp)
      have hrest : List.Sorted (· < ·) (e :: rest) := (List.sorted_cons.mp hsort).2
      have he_lt : ∀ x ∈ rest, e < x := (List.sorted_cons.mp hrest).1
      have he : e = d + 1 := by
        push_cast at hd1
        rcases List.mem_cons.mp hd1 with heq | hin
        · omega
        · rcases List.mem_cons.mp hin with heq | hin2
          · omega
          · have := he_lt _ hin2
            omega
      have hrun : ∀ i : ℕ, i < n - 1 → e + (i : ℤ) ∈ e :: rest := by
        intro i hi
        have hmem := h (i + 1) (by omega)
        have heq : d + ((i + 1 : ℕ) : ℤ) = e + (i : ℤ) := by
          rw [he]; push_cast; ring
        rw [heq] at hmem
        rcases List.mem_cons.mp hmem with heqd | hin
        · exfalso
          have hnn : (0 : ℤ) ≤ (i : ℤ) := Int.natCast_nonneg i
          omega
        · exact hin
      have hih := ih e (n - 1) hrest hrun
      have hcont : contLen d (e :: rest) = contLen e rest + 1 := by
        simp only [contLen]
        rw [if_pos he]
      omega

theorem bestOfSorted_mono (d : ℤ) (rest : List ℤ) :
    bestOfSorted rest ≤ bestOfSorted (d :: rest) := by
  cases rest with
  | nil => simp [bestOfSorted]
  | cons e rest =>
    rw [bestOfSorted_cons, bestOfSorted_cons]
    by_cases hd : e = d + 1
    · have h1 : contLen d (e :: rest) = contLen e rest + 1 := by
        simp only [contLen]; rw [if_pos hd]
      have h2 : maxRunT d (e :: rest) = maxRunT e rest := by
        simp only [maxRunT]; rw [if_pos hd]
      rw [h1, h2]
      omega
    · have h2 : maxRunT d (e :: rest) = max (contLen e rest + 1) (maxRunT e rest) := by
        simp only [maxRunT]; rw [if_neg hd]
      rw [h2]
      omega

theorem bestOfSorted_ge (l : List ℤ) :
    List.Sorted (· < ·) l →
    ∀ (a : ℤ) (n : ℕ), (∀ i : ℕ, i < n → a + (i : ℤ) ∈ l) →
      n ≤ bestOfSorted l := by
  induction l with
  | nil =>
    intro _ a n h
    by_contra hn
    push_neg at hn
    simp only [bestOfSorted] at hn
    have := h 0 (by omega)
    simp at this
  | cons d rest ih =>
    intro hsort a n h
    rcases Nat.eq_zero_or_pos n with rfl | hpos
    · exact Nat.zero_le _
    · have ha : a ∈ d :: rest := by
        have h0 := h 0 hpos
        simpa using h0
      rcases List.mem_cons.mp ha with rfl | hin
      · have := contLen_ge rest a n hsort h
        rw [bestOfSorted_cons]
        omega
      · have hd_lt : d < a := (List.sorted_cons.mp hsort).1 a hin
        have hrest : List.Sorted (· < ·) rest := (List.sorted_cons.mp hsort).2
        have hrun : ∀ i : ℕ, i < n → a + (i : ℤ) ∈ rest := by
          intro i hi
          rcases List.mem_cons.mp (h i hi) with heq | hmm
          · exfalso
            have hnn : (0 : ℤ) ≤ (i : ℤ) := Int.natCast_nonneg i
            omega
          · exact hmm
        have h1 := ih hrest a n hrun
        have h2 := bestOfSorted_mono d rest
        omega

theorem bestStreak_exists (days : Finset ℤ) :
    ∃ a : ℤ, ∀ i : ℕ, i < bestStreak days → a + (i : ℤ) ∈ days := by
  obtain ⟨a, ha⟩ := bestOfSorted_exists (days.sort (· ≤ ·))
  exact ⟨a, fun i hi => (Finset.mem_sort _).mp (ha i hi)⟩

theorem bestStreak_ge (days : Finset ℤ) (a : ℤ) (n : ℕ)
    (h : ∀ i : ℕ, i < n → a + (i : ℤ) ∈ days) : n ≤ bestStreak days :=
  bestOfSorted_ge (days.sort (· ≤ ·)) (Finset.sort_sorted_lt days) a n
    (fun i hi => (Finset.mem_sort _).mpr (h i hi))

end StreakTracker

/-- C4: the best streak is exactly the maximum length over runs of
consecutive days present in the completion-day set: some run of that
length exists, and no run is longer.  In particular the empty set gives
current streak 0 and best streak 0, and for every `d` the set
`{d, d+1, d+2, d+4, d+5}` gives best streak 3. -/
theorem streakTracker_best_streak_spec (days : Finset ℤ) (d : ℤ) :
    (∃ a : ℤ, ∀ i : ℕ, i < StreakTracker.bestStreak days →
      a + (i : ℤ) ∈ days)
    ∧ (∀ (a : ℤ) (n : ℕ), (∀ i : ℕ, i < n → a + (i : ℤ) ∈ days) →
        n ≤ StreakTracker.bestStreak days)
    ∧ StreakTracker.bestStreak (∅ : Finset ℤ) = 0
    ∧ StreakTracker.currentStreak (∅ : Finset ℤ) d = 0
    ∧ StreakTracker.bestStreak ({d, d + 1, d + 2, d + 4, d + 5} : Finset ℤ) = 3 := by
  refine ⟨StreakTracker.bestStreak_exists days,
    fun a n h => StreakTracker.bestStreak_ge days a n h, ?_, ?_, ?_⟩
  · simp [StreakTracker.bestStreak, StreakTracker.bestOfSorted]
  · simp [StreakTracker.currentStreak]
  · have hge : 3 ≤ StreakTracker.bestStreak ({d, d + 1, d + 2, d + 4, d + 5} : Finset ℤ) := by
      apply StreakTracker.bestStreak_ge _ d 3
      intro i hi
      simp only [Finset.mem_insert, Finset.mem_singleton]
      omega
    have hle : StreakTracker.bestStreak ({d, d + 1, d + 2, d + 4, d + 5} : Finset ℤ) ≤ 3 := by
      by_contra hgt
      push_neg at hgt
      obtain ⟨a, ha⟩ :=
        StreakTracker.bestStreak_exists ({d, d + 1, d + 2, d + 4, d + 5} : Finset ℤ)
      have h0 := ha 0 (by omega)
      have h1 := ha 1 (by omega)
      have h2 := ha 2 (by omega)
      have h3 := ha 3 (by omega)
      simp only [Finset.mem_insert, Finset.mem_singleton] at h0 h1 h2 h3
      push_cast at h0 h1 h2 h3
      omega
    omega

/-- Witness for C4: with completion days `{0, 1, 2, 4, 5}` the run
`0, 1, 2` forces a best streak of at least 3, and the computed best streak
is exactly 3 while the empty set gives 0. -/
theorem streakTracker_best_streak_spec_witness :
    StreakTracker.bestStreak StreakTracker.gapDays = 3
    ∧ 3 ≤ StreakTracker.bestStreak StreakTracker.gapDays
    ∧ StreakTracker.bestStreak (∅ : Finset ℤ) = 0
    ∧ StreakTracker.currentStreak (∅ : Finset ℤ) 0 = 0 := by
  have h := streakTracker_best_streak_spec StreakTracker.gapDays 0
  refine ⟨?_, h.2.1 0 3 (by decide), h.2.2.1, h.2.2.2.1⟩
  have h5 := h.2.2.2.2
  norm_num at h5
  exact h5

namespace ActivityAggregator

theorem heatLevel_le_four (c : ℕ) : heatLevel c ≤ 4 := by
  unfold heatLevel
  split_ifs <;> omega

theorem getWeekly_getElem (evs : List ℤ) (today : ℤ) (i : ℕ) (hi : i < 7) :
    (getWeekly evs today)[i]? =
      some ⟨today - 6 + (i : ℤ),
        (evs.filter fun e => e = today - 6 + (i : ℤ)).length⟩ := by
  unfold getWeekly
  rw [List.getElem?_map, List.getElem?_range hi]
  rfl

end ActivityAggregator

/-- C5: the weekly series always has exactly 7 entries, one per owner-local
day; the `i`-th entry (0-based) is the day `today - 6 + i` with the number
of completion events falling on that day, so the entries run oldest to
newest in consecutive days, the last entry is `today`, and a day with no
events appears with count 0 rather than being omitted. -/
theorem activityAggregator_weekly_series (evs : List ℤ) (today : ℤ) :
    (ActivityAggregator.getWeekly evs today).length = 7
    ∧ (∀ i : ℕ, i < 7 →
        (ActivityAggregator.getWeekly evs today)[i]? =
          some ⟨today - 6 + (i : ℤ),
            (evs.filter fun e => e = today - 6 + (i : ℤ)).length⟩)
    ∧ (∀ i : ℕ, i < 7 → (today - 6 + (i : ℤ)) ∉ evs →
        (ActivityAggregator.getWeekly evs today)[i]? =
          some ⟨today - 6 + (i : ℤ), 0⟩)
    ∧ ((ActivityAggregator.getWeekly evs today).map
        (fun dc => dc.date)).getLast? = some today
    ∧ List.Chain' (fun a b => a.date + 1 = b.date)
        (ActivityAggregator.getWeekly evs today) := by
  refine ⟨?_, ActivityAggregator.getWeekly_getElem evs today, ?_, ?_, ?_⟩
  · unfold ActivityAggregator.getWeekly
    rw [List.length_map, List.length_range]
  · intro i hi hnot
    rw [ActivityAggregator.getWeekly_getElem evs today i hi]
    have hfilter : (evs.filter fun e => e = today - 6 + (i : ℤ)) = [] := by
      rw [List.filter_eq_nil_iff]
      intro e he
      simp only [decide_eq_true_eq]
      intro heq
      exact hnot (heq ▸ he)
    rw [hfilter]
    rfl
  · unfold ActivityAggregator.getWeekly
    rw [List.map_map]
    have hrange : List.range 7 = [0, 1, 2, 3, 4, 5, 6] := rfl
    rw [hrange]
    simp only [List.map_cons, List.map_nil, Function.comp_apply]
    simp only [List.getLast?_cons_cons, List.getLast?_singleton]
    congr 1
    push_cast
    ring
  · unfold ActivityAggregator.getWeekly
    rw [List.chain'_map]
    have hrange : List.range 7 = [0, 1, 2, 3, 4, 5, 6] := rfl
    rw [hrange]
    simp only [List.chain'_cons, List.chain'_singleton, and_true]
    refine ⟨?_, ?_, ?_, ?_, ?_, ?_⟩ <;> (push_cast; ring)

/-- Witness for C5 at the empty event list and `today = 0`: the series has
7 entries and the last entry is day 0 with count 0. -/
theorem activityAggregator_weekly_series_witness :
    (ActivityAggregator.getWeekly [] 0).length = 7
    ∧ (ActivityAggregator.getWeekly [] 0)[6]? = some ⟨0, 0⟩ := by
  refine ⟨(activityAggregator_weekly_series [] 0).1, ?_⟩
  have h := (activityAggregator_weekly_series [] 0).2.1 6 (by norm_num)
  simpa using h

/-- C3: every heatmap cell carries the level quantized from its own
completion count by the fixed thresholds (0 → 0, 1 → 1, 2–3 → 2, 4–5 → 3,
≥6 → 4); levels always lie in `[0, 4]`, which indexes the frontend's five
`LEVEL_COLORS` classes, and in particular the counts
`0,1,2,3,4,5,6,10` map to levels `0,1,2,2,3,3,4,4`. -/
theorem activityAggregator_heatmap_levels (evs : List ℤ) (today : ℤ) :
    (∀ hd ∈ ActivityAggregator.getHeatmapDays evs today,
      hd.level = ActivityAggregator.heatLevel hd.count ∧ hd.level ≤ 4)
    ∧ (∀ c : ℕ,
        (c = 0 → ActivityAggregator.heatLevel c = 0)
        ∧ (c = 1 → ActivityAggregator.heatLevel c = 1)
        ∧ (2 ≤ c → c ≤ 3 → ActivityAggregator.heatLevel c = 2)
        ∧ (4 ≤ c → c ≤ 5 → ActivityAggregator.heatLevel c = 3)
        ∧ (6 ≤ c → ActivityAggregator.heatLevel c = 4))
    ∧ [0, 1, 2, 3, 4, 5, 6, 10].map ActivityAggregator.heatLevel
        = [0, 1, 2, 2, 3, 3, 4, 4]
    ∧ ActivityAggregator.LEVEL_COLORS.length = 5
    ∧ (∀ c : ℕ,
        ActivityAggregator.heatLevel c < ActivityAggregator.LEVEL_COLORS.length) := by
  refine ⟨?_, ?_, by decide, rfl, ?_⟩
  · intro hd hmem
    simp only [ActivityAggregator.getHeatmapDays, List.mem_map,
      List.mem_range] at hmem
    obtain ⟨i, _, rfl⟩ := hmem
    exact ⟨rfl, ActivityAggregator.heatLevel_le_four _⟩
  · intro c
    refine ⟨?_, ?_, ?_, ?_, ?_⟩ <;>
      (intros; unfold ActivityAggregator.heatLevel; split_ifs <;> omega)
  · intro c
    have := ActivityAggregator.heatLevel_le_four c
    simp only [ActivityAggregator.LEVEL_COLORS, List.length_cons, List.length_nil]
    omega

/-- Witness for C3: the quantization table holds, and the threshold clause
for counts at least 6 gives level 4 at count 10. -/
theorem activityAggregator_heatmap_levels_witness :
    [0, 1, 2, 3, 4, 5, 6, 10].map ActivityAggregator.heatLevel
        = [0, 1, 2, 2, 3, 3, 4, 4]
    ∧ ActivityAggregator.heatLevel 10 = 4 := by
  refine ⟨(activityAggregator_heatmap_levels [] 0).2.2.1, ?_⟩
  exact ((activityAggregator_heatmap_levels [] 0).2.1 10).2.2.2.2 (by norm_num)

/-- C6: the summary's empty-denominator guards.  With zero total tasks the
completion rate is the number 0, and with zero active tasks the average
priority is the number 0 — both are total computations into `ℚ`, which has
no NaN or infinity, so neither case is an error. -/
theorem getSummary_zero_guards (tasks : List StudyTask) :
    (tasks.length = 0 → ConsistencyCalculator.completion_rate tasks = 0)
    ∧ ((tasks.filter fun t => t.status = TaskStatus.active).length = 0 →
        ConsistencyCalculator.avg_priority tasks = 0) := by
  constructor
  · intro h
    simp [ConsistencyCalculator.completion_rate, h]
  · intro h
    simp [ConsistencyCalculator.avg_priority, h]

/-- Witness for C6: an owner with no tasks at all gets completion rate 0
and average priority 0. -/
theorem getSummary_zero_guards_witness :
    ConsistencyCalculator.completion_rate [] = 0
    ∧ ConsistencyCalculator.avg_priority [] = 0 :=
  ⟨(getSummary_zero_guards []).1 rfl, (getSummary_zero_guards []).2 rfl⟩

/-- C8: proof-requirement gating in the completion modal.  For a task with
`requires_proof = true` the skip handler issues no API call at all, the
Skip & Complete button is not rendered, and any invocation of the upload
handler that issues the complete call issues the proof upload strictly
before it — so completing a proof-required task through this modal always
goes through the proof upload first. -/
theorem proofUploadModal_gating (t : StudyTask)
    (hreq : t.requires_proof = true) :
    ProofUploadModal.handleSkipAndComplete t = []
    ∧ ProofUploadModal.skipButtonRendered t = false
    ∧ (∀ file : Option Unit,
        ProofUploadModal.ApiCall.complete t.id ∈
          ProofUploadModal.handleUploadAndComplete t file →
        ProofUploadModal.handleUploadAndComplete t file =
          [ProofUploadModal.ApiCall.uploadProof t.id,
            ProofUploadModal.ApiCall.complete t.id]) := by
  refine ⟨?_, ?_, ?_⟩
  · simp [ProofUploadModal.handleSkipAndComplete, ProofUploadModal.isMandatory, hreq]
  · simp [ProofUploadModal.skipButtonRendered, ProofUploadModal.isMandatory, hreq]
  · intro file hmem
    cases file with
    | none => simp [ProofUploadModal.handleUploadAndComplete] at hmem
    | some u => rfl

/-- Witness for C8: a concrete proof-required task; its skip handler does
nothing and its skip button is hidden. -/
theorem proofUploadModal_gating_witness :
    ProofUploadModal.handleSkipAndComplete
        ⟨0, TaskStatus.active, 0, 0, true⟩ = []
    ∧ ProofUploadModal.skipButtonRendered
        ⟨0, TaskStatus.active, 0, 0, true⟩ = false :=
  ⟨(proofUploadModal_gating ⟨0, TaskStatus.active, 0, 0, true⟩ rfl).1,
    (proofUploadModal_gating ⟨0, TaskStatus.active, 0, 0, true⟩ rfl).2.1⟩

/-- C9: the task form's submit handler never reaches `onSubmit` with
invalid attributes: whenever the trimmed title is blank, or the task is a
specific-date task with an empty due date, or the effort field is empty or
parses to a value at most 0, the handler returns an error result instead
of a submission. -/
theorem taskForm_validation (fd : TaskForm.FormData) (e1 e2 : String)
    (hinv : fd.title.trim = ""
      ∨ (fd.task_type = TaskForm.TaskType.specific_date ∧ fd.due_date = "")
      ∨ fd.effort_hours = TaskForm.EffortField.empty
      ∨ (∃ q : ℚ, fd.effort_hours = TaskForm.EffortField.numeric q ∧ q ≤ 0)) :
    ∃ msg, TaskForm.handleSubmit fd e1 e2 = TaskForm.SubmitResult.error msg := by
  rcases hinv with h | ⟨hty, hdd⟩ | h | ⟨q, hq, hq0⟩
  · exact ⟨"Title is required", by simp [TaskForm.handleSubmit, h]⟩
  · by_cases ht : fd.title.trim = ""
    · exact ⟨"Title is required", by simp [TaskForm.handleSubmit, ht]⟩
    · exact ⟨"Due date is required for a specific date task",
        by simp [TaskForm.handleSubmit, ht, hty, hdd]⟩
  · by_cases ht : fd.title.trim = ""
    · exact ⟨"Title is required", by simp [TaskForm.handleSubmit, ht]⟩
    · cases hty2 : fd.task_type with
      | daily =>
        exact ⟨"Effort hours must be greater than 0",
          by simp [TaskForm.handleSubmit, ht, hty2, h, TaskForm.isFalsy]⟩
      | weekly =>
        exact ⟨"Effort hours must be greater than 0",
          by simp [TaskForm.handleSubmit, ht, hty2, h, TaskForm.isFalsy]⟩
      | specific_date =>
        by_cases hdd : fd.due_date = ""
        · exact ⟨"Due date is required for a specific date task",
            by simp [TaskForm.handleSubmit, ht, hty2, hdd]⟩
        · exact ⟨"Effort hours must be greater than 0",
            by simp [TaskForm.handleSubmit, ht, hty2, hdd, h, TaskForm.isFalsy]⟩
  · by_cases ht : fd.title.trim = ""
    · exact ⟨"Title is required", by simp [TaskForm.handleSubmit, ht]⟩
    · cases hty2 : fd.task_type with
      | daily =>
        exact ⟨"Effort hours must be greater than 0",
          by simp [TaskForm.handleSubmit, ht, hty2, hq, hq0, TaskForm.isFalsy,
            TaskForm.jsLe, TaskForm.parseFloat]⟩
      | weekly =>
        exact ⟨"Effort hours must be greater than 0",
          by simp [TaskForm.handleSubmit, ht, hty2, hq, hq0, TaskForm.isFalsy,
            TaskForm.jsLe, TaskForm.parseFloat]⟩
      | specific_date =>
        by_cases hdd : fd.due_date = ""
        · exact ⟨"Due date is required for a specific date task",
            by simp [TaskForm.handleSubmit, ht, hty2, hdd]⟩
        · exact ⟨"Effort hours must be greater than 0",
            by simp [TaskForm.handleSubmit, ht, hty2, hdd, hq, hq0,
              TaskForm.isFalsy, TaskForm.jsLe, TaskForm.parseFloat]⟩

/-- Witness for C9: a concrete form state with a non-blank title but an
empty effort field is rejected with an error result. -/
theorem taskForm_validation_witness :
    ∃ msg,
      TaskForm.handleSubmit
        ⟨"Study", TaskForm.TaskType.specific_date, "2026-01-01",
          TaskForm.EffortField.empty, 3⟩ "x" "y"
        = TaskForm.SubmitResult.error msg :=
  taskForm_validation
    ⟨"Study", TaskForm.TaskType.specific_date, "2026-01-01",
      TaskForm.EffortField.empty, 3⟩ "x" "y"
    (Or.inr (Or.inr (Or.inl rfl)))

namespace Home

theorem taskLE_iff (a b : StudyTask) :
    taskLE a b = true ↔
      (b.priority_score < a.priority_score
        ∨ (a.priority_score = b.priority_score ∧ a.due_date ≤ b.due_date)) := by
  unfold taskLE
  by_cases h : b.priority_score = a.priority_score
  · rw [if_neg (by simp [h])]
    simp only [decide_eq_true_eq]
    constructor
    · intro hd
      exact Or.inr ⟨h.symm, hd⟩
    · rintro (hlt | ⟨_, hd⟩)
      · rw [h] at hlt
        exact absurd hlt (lt_irrefl _)
      · exact hd
  · rw [if_pos h]
    simp only [decide_eq_true_eq]
    constructor
    · intro hlt
      exact Or.inl hlt
    · rintro (hlt | ⟨heq, _⟩)
      · exact hlt
      · exact absurd heq.symm h

theorem taskLE_trans (a b c : StudyTask) (h1 : taskLE a b = true)
    (h2 : taskLE b c = true) : taskLE a c = true := by
  rw [taskLE_iff] at h1 h2 ⊢
  rcases h1 with h1 | ⟨e1, d1⟩ <;> rcases h2 with h2 | ⟨e2, d2⟩
  · exact Or.inl (h2.trans h1)
  · exact Or.inl (by rw [← e2]; exact h1)
  · exact Or.inl (by rw [e1]; exact h2)
  · exact Or.inr ⟨e1.trans e2, d1.trans d2⟩

theorem taskLE_total (a b : StudyTask) :
    taskLE a b = true ∨ taskLE b a = true := by
  rw [taskLE_iff, taskLE_iff]
  rcases lt_trichotomy a.priority_score b.priority_score with h | h | h
  · exact Or.inr (Or.inl h)
  · rcases le_total a.due_date b.due_date with hd | hd
    · exact Or.inl (Or.inr ⟨h, hd⟩)
    · exact Or.inr (Or.inr ⟨h.symm, hd⟩)
  · exact Or.inl (Or.inl h)

end Home

/-- C10: the Home view's task list is a permutation of exactly the fetched
tasks whose status is `active`, ordered so that each adjacent pair has
strictly decreasing priority score, or equal scores with the earlier task
due no later than the next. -/
theorem home_loadTasks_spec (fetched : List StudyTask) :
    List.Perm (Home.loadTasks fetched)
      (fetched.filter fun t => t.status = TaskStatus.active)
    ∧ List.Chain' (fun x y =>
        y.priority_score < x.priority_score
        ∨ (x.priority_score = y.priority_score ∧ x.due_date ≤ y.due_date))
      (Home.loadTasks fetched) := by
  constructor
  · exact List.mergeSort_perm _ _
  · have hp : (Home.loadTasks fetched).Pairwise
        (fun a b => Home.taskLE a b = true) := by
      apply List.sorted_mergeSort
      · intro a b c hab hbc
        exact Home.taskLE_trans a b c hab hbc
      · intro a b
        rcases Home.taskLE_total a b with h | h <;> simp [h]
    exact hp.chain'.imp fun a b h => (Home.taskLE_iff a b).mp h
